import Mathlib

/-!
# Verification of the coba contextual-bandit benchmarking engine

A shallow embedding of the core of the `coba` repository, together with
theorems settling the frozen specification claims.

Embedding conventions:
* Python integers are `Nat`/`Int`; Python float arithmetic on the values
  produced by the library's own LCG is modelled exactly over `ℚ`
  (`state / (m-1)`, products, divisions), and Python's `int(...)`
  truncation toward zero is `pyInt`.
* Fallible Python code (raising statements) returns `Except PyErr _`.
* Each definition carries a note pointing at the source
  function it embeds.
-/

namespace Coba

/-- The Python exception values the embedded code can raise. -/
inductive PyErr where
  /-- `AttributeError` from looking up a missing attribute of the given name. -/
  | attributeError (name : String)
  /-- `statistics.StatisticsError` (e.g. `median` of an empty sequence). -/
  | statisticsError
  /-- `ZeroDivisionError`. -/
  | zeroDivisionError
  /-- `ValueError` (e.g. `Random._next` with `n <= 0`). -/
  | valueError
  /-- `IndexError` from an out-of-range sequence index. -/
  | indexError
  /-- `KeyError` from a missing dict key. -/
  | keyError
  /-- `CobaException` (coba's own exception type). -/
  | cobaException (msg : String)
  /-- Any other exception raised by user-supplied code (e.g. a learner). -/
  | other (msg : String)
deriving DecidableEq, Repr

/-! ## PRNG — `coba/random.py`, class `Random`

The generator is the LCG `x_{n+1} = (a * x_n + c) % m` with
`a = 116646453`, `c = 9`, `m = 2^30` (`Random.__init__` / `Random._next`).
Uniform draws are `state / (m - 1)` (`Random.randoms`). -/

/-- `m = 2**30` from `Random.__init__`. -/
def lcgM : ℕ := 2 ^ 30

/-- One step of the LCG: `self._seed = (self._a * self._seed + self._c) % self._m`
(`Random._next`; the `& (m-1)` power-of-two branch equals `% m`). -/
def lcgNext (s : ℕ) : ℕ := (116646453 * s + 9) % lcgM

/-- A raw LCG state as a uniform draw in `[0,1]`:
`number / self._m_minus_1` from `Random.randoms`. -/
def lcgUniform (state : ℕ) : ℚ := (state : ℚ) / ((lcgM : ℚ) - 1)

/-- `Random._next(n)` followed by the division of `Random.randoms`:
returns the `n` uniform draws together with the advanced generator state. -/
def randomsFrom : ℕ → ℕ → List ℚ × ℕ
  | s, 0 => ([], s)
  | s, n + 1 =>
    let s' := lcgNext s
    let rest := randomsFrom s' n
    (lcgUniform s' :: rest.1, rest.2)

/-- `Random.randoms(n)` including the guard of `Random._next`, which raises
`ValueError("n must be an integer greater than 0")` when `n <= 0`. -/
def randomsE (s : ℕ) (n : ℕ) : Except PyErr (List ℚ × ℕ) :=
  if n = 0 then .error .valueError else .ok (randomsFrom s n)

/-- Python `int(q)`: truncation toward zero. -/
def pyInt (q : ℚ) : ℤ := if 0 ≤ q then ⌊q⌋ else -⌊-q⌋

/-- `randint(a, b)` from `coba/random.py`:
`(min(int( (b-a+1) * random()), b-1) + a)`, as a function of the uniform
draw `u` produced by `random()`. -/
def randintQ (a b : ℤ) (u : ℚ) : ℤ :=
  min (pyInt (((b - a + 1 : ℤ) : ℚ) * u)) (b - 1) + a

/-- `randint(a, b)` where the uniform draw comes from the module generator
seeded at `seed` (`random()` = `randoms(1)[0]` advances the state once). -/
def randintFromSeed (seed : ℕ) (a b : ℤ) : ℤ :=
  randintQ a b (lcgUniform (lcgNext seed))

/-- The simultaneous assignment `l[i], l[j] = l[j], l[i]` of `Random.shuffle`
(both right-hand sides read the pre-assignment list). -/
def pySwap (l : List α) (i j : ℕ) (d : α) : List α :=
  (l.set i (l.getD j d)).set j (l.getD i d)

/-- One iteration of the `Random.shuffle` loop:
`j = min(int(i + (r[i] * (n-i))), n-1)` followed by the swap. -/
def shuffleStep (n : ℕ) (d : α) (l : List α) (iu : ℕ × ℚ) : List α :=
  let j : ℕ := (min (pyInt ((iu.1 : ℚ) + iu.2 * ((n : ℚ) - (iu.1 : ℚ)))) ((n : ℤ) - 1)).toNat
  pySwap l iu.1 j d

/-- `Random.shuffle(sequence)` seeded at `seed`: draws `n = len(sequence)`
uniforms (raising `ValueError` from `_next` when `n = 0`), then runs the
swap loop over a copy of the input. `d` is an arbitrary default for the
(always in-range) index accesses. -/
def pyShuffle (seed : ℕ) (l : List α) (d : α) : Except PyErr (List α) :=
  match randomsE seed l.length with
  | .error e => .error e
  | .ok (r, _) => .ok (((List.range l.length).zip r).foldl (shuffleStep l.length d) l)

/-! ### PRNG lemmas -/

theorem lcgNext_lt (s : ℕ) : lcgNext s < lcgM := by
  unfold lcgNext lcgM
  exact Nat.mod_lt _ (by norm_num)

theorem lcgUniform_nonneg (s : ℕ) : 0 ≤ lcgUniform s := by
  unfold lcgUniform lcgM
  positivity

theorem lcgUniform_le_one {s : ℕ} (h : s < lcgM) : lcgUniform s ≤ 1 := by
  unfold lcgUniform
  rw [div_le_one (by unfold lcgM; norm_num)]
  have : (s : ℚ) ≤ (lcgM : ℚ) - 1 := by
    have : (s : ℚ) + 1 ≤ (lcgM : ℚ) := by exact_mod_cast Nat.succ_le_of_lt h
    linarith
  exact this

/-- Lengths are preserved by the swap of `Random.shuffle`. -/
theorem pySwap_length (l : List α) (i j : ℕ) (d : α) :
    (pySwap l i j d).length = l.length := by
  simp [pySwap]

theorem getD_cons_set_perm (d : α) :
    ∀ (xs : List α) (k : ℕ) (x : α), k < xs.length →
      (xs.getD k d :: xs.set k x).Perm (x :: xs) := by
  intro xs
  induction xs with
  | nil => intro k x h; simp at h
  | cons y ys ih =>
    intro k x h
    cases k with
    | zero =>
      simp only [List.getD_cons_zero, List.set_cons_zero]
      exact List.Perm.swap x y ys
    | succ k =>
      simp only [List.getD_cons_succ, List.set_cons_succ]
      have hk : k < ys.length := by simpa using h
      have h1 : (ys.getD k d :: y :: ys.set k x).Perm (y :: ys.getD k d :: ys.set k x) :=
        List.Perm.swap y (ys.getD k d) _
      have h2 : (y :: ys.getD k d :: ys.set k x).Perm (y :: x :: ys) :=
        List.Perm.cons y (ih k x hk)
      have h3 : (y :: x :: ys).Perm (x :: y :: ys) := List.Perm.swap x y ys
      exact (h1.trans h2).trans h3

/-- The swap of `Random.shuffle` permutes the list. -/
theorem pySwap_perm (l : List α) (i j : ℕ) (d : α)
    (hi : i < l.length) (hj : j < l.length) : (pySwap l i j d).Perm l := by
  induction l generalizing i j with
  | nil => simp at hi
  | cons y ys ih =>
    cases i with
    | zero =>
      cases j with
      | zero => simp [pySwap]
      | succ j =>
        have hj' : j < ys.length := by simpa using hj
        simp only [pySwap, List.getD_cons_succ, List.set_cons_zero, List.getD_cons_zero,
          List.set_cons_succ]
        exact getD_cons_set_perm d ys j y hj'
    | succ i =>
      cases j with
      | zero =>
        have hi' : i < ys.length := by simpa using hi
        simp only [pySwap, List.getD_cons_zero, List.set_cons_succ, List.getD_cons_succ,
          List.set_cons_zero]
        exact getD_cons_set_perm d ys i y hi'
      | succ j =>
        have hi' : i < ys.length := by simpa using hi
        have hj' : j < ys.length := by simpa using hj
        simp only [pySwap, List.getD_cons_succ, List.set_cons_succ]
        exact List.Perm.cons y (ih i j hi' hj')

/-- Folding shuffle steps whose loop indices stay below the (invariant)
length produces a permutation. -/
theorem foldl_shuffleStep_perm (d : α) :
    ∀ (pairs : List (ℕ × ℚ)) (l : List α), 0 < l.length →
      (∀ p ∈ pairs, p.1 < l.length) →
      ((pairs.foldl (shuffleStep l.length d) l).Perm l) := by
  intro pairs
  induction pairs with
  | nil => intro l _ _; simp
  | cons p ps ih =>
    intro l hpos hmem
    have hi : p.1 < l.length := hmem p (by simp)
    have hj : (min (pyInt ((p.1 : ℚ) + p.2 * ((l.length : ℚ) - (p.1 : ℚ)))) ((l.length : ℤ) - 1)).toNat
        < l.length := by
      have h1 : (min (pyInt ((p.1 : ℚ) + p.2 * ((l.length : ℚ) - (p.1 : ℚ)))) ((l.length : ℤ) - 1))
          ≤ (l.length : ℤ) - 1 := min_le_right _ _
      have h2 : ((l.length : ℤ) - 1).toNat < l.length := by omega
      calc (min (pyInt ((p.1 : ℚ) + p.2 * ((l.length : ℚ) - (p.1 : ℚ)))) ((l.length : ℤ) - 1)).toNat
            ≤ ((l.length : ℤ) - 1).toNat := Int.toNat_le_toNat h1
        _ < l.length := h2
    have hstep : (shuffleStep l.length d l p).Perm l := pySwap_perm l p.1 _ d hi hj
    have hlen : (shuffleStep l.length d l p).length = l.length := by
      simp [shuffleStep, pySwap_length]
    have := ih (shuffleStep l.length d l p) (by omega)
      (by intro q hq; rw [hlen]; exact hmem q (by simp [hq]))
    rw [hlen] at this
    exact List.Perm.trans (by simpa using this) hstep

/-! ### Claim C6 — `randint` bounds -/

/-- Claim C6 (code_bug evidence): `randint` is documented to
"Generate a uniform random integer in [a, b]", but the clamp is
`min(..., b-1)` instead of `min(..., b-a)`.  Consequently
`randint(0, 2)` can never return its upper bound `2` (for every uniform
draw, and for every seed of the module generator), and on the draw
`u = 1.0` the value `randint(2, 3)` is `4`, outside `[2, 3]`. -/
theorem randint_clamp_bug :
    (∀ u : ℚ, randintQ 0 2 u ≤ 1) ∧
    (∀ seed : ℕ, randintFromSeed seed 0 2 ≤ 1) ∧
    randintQ 2 3 1 = 4 := by
  refine ⟨?_, ?_, ?_⟩
  · intro u
    have h : min (pyInt (((2 - 0 + 1 : ℤ) : ℚ) * u)) (2 - 1) ≤ (2 - 1 : ℤ) := min_le_right _ _
    simp only [randintQ]
    omega
  · intro seed
    have h : min (pyInt (((2 - 0 + 1 : ℤ) : ℚ) * lcgUniform (lcgNext seed))) (2 - 1)
        ≤ (2 - 1 : ℤ) := min_le_right _ _
    simp only [randintFromSeed, randintQ]
    omega
  · norm_num [randintQ, pyInt]

/-! ### Claim C10 — `shuffle` is a permutation -/

/-- Claim C10 counterexample: `shuffle` on the empty sequence does not
return a permutation — it raises `ValueError`, because
`Random.shuffle` calls `self.randoms(0)` and `Random._next` rejects
`n <= 0`. -/
theorem shuffle_nil_raises : pyShuffle 0 ([] : List ℕ) 0 = .error .valueError := rfl

/-- Claim C10 (amended): for every seed and every **non-empty** finite
sequence, `Random.shuffle` returns a permutation of its input (same
length, same multiset of elements); on the empty sequence it instead
raises `ValueError`. -/
theorem shuffle_perm_of_ne_nil (seed : ℕ) (l : List α) (d : α) (h : l ≠ []) :
    ∃ l', pyShuffle seed l d = .ok l' ∧ l'.Perm l := by
  have hn : l.length ≠ 0 := by simpa using h
  refine ⟨((List.range l.length).zip (randomsFrom seed l.length).1).foldl
    (shuffleStep l.length d) l, ?_, ?_⟩
  · simp [pyShuffle, randomsE, hn]
  · refine foldl_shuffleStep_perm d _ l (Nat.pos_of_ne_zero hn) ?_
    intro p hp
    have := List.of_mem_zip hp
    exact List.mem_range.mp this.1

/-- Witness for claim C10's amended theorem at a concrete input. -/
theorem shuffle_perm_of_ne_nil_witness :
    ([1, 2, 3] : List ℕ) ≠ [] ∧
      ∃ l', pyShuffle 0 ([1, 2, 3] : List ℕ) 0 = .ok l' ∧ l'.Perm [1, 2, 3] :=
  ⟨by decide, shuffle_perm_of_ne_nil 0 [1, 2, 3] 0 (by decide)⟩

/-! ## Batching policies — `UniversalBenchmark._batch_sizes` (`coba/benchmarks.py`)

The `batch_count` branch computes `[int(float(n)/K)] * K`, then for
`i in range(n % K)` does `batches[int(i * (float(K)/r))] += 1` — in
IEEE double arithmetic, whose faithful model (`batchSizesCountF`)
follows below.  `batchSizesCount` is the exact-arithmetic reading of
the same branch (base `⌊N/K⌋`, slots `⌊i·K/r⌋` — the spec's spacing
formula); the evaluation-loop claims use it only through the fact that
the schedule is non-empty and sums to the interaction count.  The
callable `batch_size` branch loops
`while remaining_interactions > next_batch_size`. -/

/-- `batches[j] += 1` on a list of sizes (`List.set` at an in-range index). -/
def bumpAt (b : List ℕ) (j : ℕ) : List ℕ := b.set j (b.getD j 0 + 1)

/-- The remainder-distribution loop `for i in range(remainder): batches[...] += 1`. -/
def applyBumps (b : List ℕ) (ts : List ℕ) : List ℕ := ts.foldl bumpAt b

/-- The spec's spacing formula for the remainder slots: `⌊i·K/r⌋` for
`i in range(r)`, with `r = n % K` (the exact-arithmetic reading of
`int(i * (float(K)/r))`; the IEEE reading is `bumpSlotsF` below). -/
def bumpTargets (n k : ℕ) : List ℕ :=
  (List.range (n % k)).map fun i => i * k / (n % k)

/-- The exact-arithmetic reading of the `batch_count` branch of
`UniversalBenchmark._batch_sizes` (the IEEE-faithful reading is
`batchSizesCountF` below; the two agree wherever the doubles are
exact, e.g. on the concrete schedules of the evaluation-loop claims). -/
def batchSizesCount (n k : ℕ) : List ℕ :=
  applyBumps (List.replicate k (n / k)) (bumpTargets n k)

/-- The callable `batch_size` loop of `UniversalBenchmark._batch_sizes`,
with explicit fuel (the Python loop terminates whenever every batch size
is positive, which the fuel `n + 1` covers). -/
def batchSizesFnGo : ℕ → ℕ → ℕ → (ℕ → ℕ) → List ℕ
  | 0, _, _, _ => []
  | fuel + 1, rem, i, f =>
    if f i < rem then f i :: batchSizesFnGo fuel (rem - f i) (i + 1) f else []

/-- The callable `batch_size` branch of `UniversalBenchmark._batch_sizes`:
`while remaining_interactions > next_batch_size: append; subtract`. -/
def batchSizesFn (n : ℕ) (f : ℕ → ℕ) : List ℕ := batchSizesFnGo (n + 1) n 0 f

theorem applyBumps_length (ts : List ℕ) : ∀ b : List ℕ, (applyBumps b ts).length = b.length := by
  induction ts with
  | nil => intro b; rfl
  | cons t ts ih =>
    intro b
    show (applyBumps (bumpAt b t) ts).length = b.length
    rw [ih (bumpAt b t)]
    simp [bumpAt]

theorem getD_bumpAt :
    ∀ (b : List ℕ) (t j : ℕ), t < b.length →
      (bumpAt b t).getD j 0 = b.getD j 0 + (if t = j then 1 else 0) := by
  intro b
  induction b with
  | nil => intro t j ht; simp at ht
  | cons x xs ih =>
    intro t j ht
    cases t with
    | zero =>
      cases j with
      | zero => simp [bumpAt]
      | succ j => simp [bumpAt]
    | succ t =>
      have ht' : t < xs.length := by simpa using ht
      cases j with
      | zero => simp [bumpAt]
      | succ j =>
        have := ih t j ht'
        simp only [bumpAt, List.getD_cons_succ, List.set_cons_succ] at this ⊢
        rw [this]
        by_cases h : t = j <;> simp [h]

theorem getD_applyBumps (ts : List ℕ) :
    ∀ b : List ℕ, (∀ t ∈ ts, t < b.length) → ∀ j,
      (applyBumps b ts).getD j 0 = b.getD j 0 + ts.count j := by
  induction ts with
  | nil => intro b _ j; simp [applyBumps]
  | cons t ts ih =>
    intro b hts j
    have ht : t < b.length := hts t (by simp)
    have hlen : (bumpAt b t).length = b.length := by simp [bumpAt]
    show (applyBumps (bumpAt b t) ts).getD j 0 = _
    rw [ih (bumpAt b t) (by intro x hx; rw [hlen]; exact hts x (by simp [hx])) j,
      getD_bumpAt b t j ht]
    simp only [List.count_cons]
    have : (if (t == j) = true then 1 else 0) = (if t = j then 1 else 0) := by
      by_cases h : t = j <;> simp [h]
    omega

theorem sum_bumpAt :
    ∀ (b : List ℕ) (t : ℕ), t < b.length → (bumpAt b t).sum = b.sum + 1 := by
  intro b
  induction b with
  | nil => intro t ht; simp at ht
  | cons x xs ih =>
    intro t ht
    cases t with
    | zero => simp [bumpAt]; omega
    | succ t =>
      have ht' : t < xs.length := by simpa using ht
      have := ih t ht'
      simp only [bumpAt, List.getD_cons_succ, List.set_cons_succ, List.sum_cons] at this ⊢
      omega

theorem sum_applyBumps (ts : List ℕ) :
    ∀ b : List ℕ, (∀ t ∈ ts, t < b.length) →
      (applyBumps b ts).sum = b.sum + ts.length := by
  induction ts with
  | nil => intro b _; simp [applyBumps]
  | cons t ts ih =>
    intro b hts
    have ht : t < b.length := hts t (by simp)
    have hlen : (bumpAt b t).length = b.length := by simp [bumpAt]
    have hsum : (bumpAt b t).sum = b.sum + 1 := sum_bumpAt b t ht
    show (applyBumps (bumpAt b t) ts).sum = _
    rw [ih (bumpAt b t) (by intro x hx; rw [hlen]; exact hts x (by simp [hx])), hsum]
    simp
    omega

theorem getD_replicate_of_lt (v : ℕ) : ∀ (k j : ℕ), j < k → (List.replicate k v).getD j 0 = v := by
  intro k
  induction k with
  | zero => intro j h; simp at h
  | succ k ih =>
    intro j h
    cases j with
    | zero => simp
    | succ j => simpa [List.replicate_succ] using ih j (by omega)

theorem bumpTargets_mem_lt {n k : ℕ} (hk : 0 < k) :
    ∀ t ∈ bumpTargets n k, t < k := by
  intro t ht
  simp only [bumpTargets, List.mem_map, List.mem_range] at ht
  obtain ⟨i, hi, rfl⟩ := ht
  have hr : 0 < n % k := Nat.pos_of_ne_zero (by omega)
  rw [Nat.div_lt_iff_lt_mul hr]
  calc i * k < (n % k) * k := by
        exact Nat.mul_lt_mul_of_lt_of_le hi (Nat.le_refl k) hk
    _ = k * (n % k) := Nat.mul_comm _ _

/-! ### IEEE-754 binary64 model for the `batch_count` arithmetic

Python evaluates `int(float(n_interactions)/K)` and
`int(i * (float(K)/r))` in IEEE double precision, which can disagree
with the exact quotients (`int(13*(150/130))` is `14`, while
`⌊13·150/130⌋ = 15`).  A non-negative double is a dyadic rational
`sig · 2^exp`; `roundRat` rounds a non-negative rational to the nearest
double (ties to even), which is exactly CPython's float division and
multiplication on non-negative operands. -/

/-- Bit length of a natural number (fuel-bounded structural recursion;
the fuel 2048 covers every finite double). -/
def bitsGo : ℕ → ℕ → ℕ
  | 0, _ => 0
  | fuel + 1, n => if n = 0 then 0 else bitsGo fuel (n / 2) + 1

/-- `bits n` = number of binary digits of `n`. -/
def bits (n : ℕ) : ℕ := bitsGo 2048 n

/-- Round `num/den` to the nearest integer, ties to even. -/
def rtne (num den : ℕ) : ℕ :=
  let q := num / den
  let r := num % den
  if den < 2 * r then q + 1
  else if 2 * r < den then q
  else if q % 2 = 0 then q else q + 1

/-- Round `(num/den) / 2^e` to the nearest integer, ties to even. -/
def scaledRound (num den : ℕ) (e : ℤ) : ℕ :=
  if 0 ≤ e then rtne num (den * 2 ^ e.toNat) else rtne (num * 2 ^ (-e).toNat) den

/-- A non-negative IEEE double as a dyadic rational `sig · 2^exp`. -/
structure Dyad where
  sig : ℕ
  exp : ℤ
deriving DecidableEq, Repr

/-- Round the non-negative rational `num/den` to the nearest binary64
value (round-to-nearest, ties-to-even): pick the exponent `e` with
`(num/den)/2^e ∈ [2^52, 2^54)` from the bit lengths and round the
scaled significand, stepping the exponent when the significand
overflows the 53-bit range. -/
def roundRat (num den : ℕ) : Dyad :=
  if num = 0 then ⟨0, 0⟩
  else
    let e : ℤ := (bits num : ℤ) - (bits den : ℤ) - 53
    let sig1 := scaledRound num den e
    if sig1 < 2 ^ 53 then
      if sig1 < 2 ^ 52 then ⟨scaledRound num den (e - 1), e - 1⟩ else ⟨sig1, e⟩
    else ⟨scaledRound num den (e + 1), e + 1⟩

/-- A dyadic value as a fraction of naturals. -/
def dyadToPair (d : Dyad) : ℕ × ℕ :=
  if 0 ≤ d.exp then (d.sig * 2 ^ d.exp.toNat, 1) else (d.sig, 2 ^ (-d.exp).toNat)

/-- Double `/` int (the int converts exactly below `2^53`). -/
def floatDivNat (d : Dyad) (k : ℕ) : Dyad :=
  roundRat (dyadToPair d).1 ((dyadToPair d).2 * k)

/-- Int `*` double (the int converts exactly below `2^53`). -/
def floatMulNat (i : ℕ) (d : Dyad) : Dyad :=
  roundRat (i * (dyadToPair d).1) (dyadToPair d).2

/-- `int(...)` of a non-negative double. -/
def dyadFloor (d : Dyad) : ℕ :=
  if 0 ≤ d.exp then d.sig * 2 ^ d.exp.toNat else d.sig / 2 ^ (-d.exp).toNat

/-- `int(float(a)/b)` as evaluated by CPython. -/
def pyFloatDivInt (a b : ℕ) : Dyad := floatDivNat (roundRat a 1) b

/-- The slots actually hit by the remainder loop in IEEE arithmetic:
`int(i * spacing)` with `spacing = float(K)/r`. -/
def bumpSlotsF (n k : ℕ) : List ℕ :=
  (List.range (n % k)).map fun i => dyadFloor (floatMulNat i (pyFloatDivInt k (n % k)))

/-- The `batch_count` branch of `UniversalBenchmark._batch_sizes` with
its arithmetic carried out in IEEE binary64, as CPython does:
`[int(float(n)/K)] * K`, then `batches[int(i*(float(K)/r))] += 1`
(the remainder loop runs only when `r > 0`, so the spacing division is
never a division by zero). -/
def batchSizesCountF (n k : ℕ) : List ℕ :=
  applyBumps (List.replicate k (dyadFloor (pyFloatDivInt n k))) (bumpSlotsF n k)

set_option maxRecDepth 100000 in
/-- Claim C4 counterexample: the claimed placement `⌊i·K/r⌋` is not
what the program computes.  At `N = 280`, `K = 150` (`r = 130`) the
IEEE evaluation of `int(13 * (float(150)/130))` is `14`, while
`⌊13·150/130⌋ = 15`, and the resulting schedule differs from the
claim's spacing-rule schedule (`bumpTargets` is the claim's formula). -/
theorem batch_count_spacing_diverges :
    dyadFloor (floatMulNat 13 (pyFloatDivInt 150 130)) = 14 ∧
    13 * 150 / 130 = 15 ∧
    batchSizesCountF 280 150
      ≠ (List.range 150).map (fun j => 280 / 150 + (bumpTargets 280 150).count j) := by
  decide

/-- Claim C4 (amended): the `batch_count` policy returns exactly `K`
batch sizes; the base size is `int(float(N)/K)` and the `r = N mod K`
extra units go to the slots `int(i * (float(K)/r))`, all computed in
IEEE double arithmetic — these can differ from the claimed exact
`⌊i·K/r⌋` (and the base from `⌊N/K⌋` once `N` exceeds `2^53`).  When
the computed slots are in range and pairwise distinct (as in the
practical regime), the sizes sum to `K·base + r` — equal to `N`
whenever the base is exact — and every size is `base` or `base + 1`;
`N = 5, K = 2` still yields `[3, 2]`. -/
theorem batch_count_float_partition (n k : ℕ) (_hk : 0 < k)
    (hrange : ∀ t ∈ bumpSlotsF n k, t < k)
    (hnodup : (bumpSlotsF n k).Nodup) :
    (batchSizesCountF n k).length = k ∧
    (batchSizesCountF n k).sum = k * dyadFloor (pyFloatDivInt n k) + n % k ∧
    batchSizesCountF n k = (List.range k).map
      (fun j => dyadFloor (pyFloatDivInt n k) + (bumpSlotsF n k).count j) ∧
    (∀ x ∈ batchSizesCountF n k, x = dyadFloor (pyFloatDivInt n k) ∨
      x = dyadFloor (pyFloatDivInt n k) + 1) ∧
    batchSizesCountF 5 2 = [3, 2] := by
  have hlt : ∀ t ∈ bumpSlotsF n k,
      t < (List.replicate k (dyadFloor (pyFloatDivInt n k))).length := by
    intro t ht
    rw [List.length_replicate]
    exact hrange t ht
  have hlen : (batchSizesCountF n k).length = k := by
    unfold batchSizesCountF
    rw [applyBumps_length]
    exact List.length_replicate k _
  have hmapform : batchSizesCountF n k = (List.range k).map
      (fun j => dyadFloor (pyFloatDivInt n k) + (bumpSlotsF n k).count j) := by
    apply List.ext_getElem
    · simp [hlen]
    · intro j h1 h2
      have hj : j < k := by simpa [hlen] using h1
      have hd : (batchSizesCountF n k).getD j 0
          = dyadFloor (pyFloatDivInt n k) + (bumpSlotsF n k).count j := by
        unfold batchSizesCountF
        rw [getD_applyBumps _ _ hlt j, getD_replicate_of_lt _ k j hj]
      rw [List.getD_eq_getElem _ _ h1] at hd
      rw [hd]
      simp
  refine ⟨hlen, ?_, hmapform, ?_, by decide⟩
  · unfold batchSizesCountF
    rw [sum_applyBumps _ _ hlt]
    have h1 : (List.replicate k (dyadFloor (pyFloatDivInt n k))).sum
        = k * dyadFloor (pyFloatDivInt n k) := by
      simp [List.sum_replicate, Nat.smul_one_eq_cast]
    have h2 : (bumpSlotsF n k).length = n % k := by
      simp [bumpSlotsF]
    rw [h1, h2]
  · intro x hx
    rw [hmapform] at hx
    simp only [List.mem_map, List.mem_range] at hx
    obtain ⟨j, _, rfl⟩ := hx
    have hcount : (bumpSlotsF n k).count j ≤ 1 :=
      List.nodup_iff_count_le_one.mp hnodup j
    omega

/-- Witness for claim C4's amended theorem at `N = 5`, `K = 2`. -/
theorem batch_count_float_partition_witness :
    0 < 2 ∧ (∀ t ∈ bumpSlotsF 5 2, t < 2) ∧ (bumpSlotsF 5 2).Nodup ∧
    ((batchSizesCountF 5 2).length = 2 ∧
     (batchSizesCountF 5 2).sum = 2 * dyadFloor (pyFloatDivInt 5 2) + 5 % 2 ∧
     batchSizesCountF 5 2 = (List.range 2).map
       (fun j => dyadFloor (pyFloatDivInt 5 2) + (bumpSlotsF 5 2).count j) ∧
     (∀ x ∈ batchSizesCountF 5 2, x = dyadFloor (pyFloatDivInt 5 2) ∨
       x = dyadFloor (pyFloatDivInt 5 2) + 1) ∧
     batchSizesCountF 5 2 = [3, 2]) :=
  ⟨by decide, by decide, by decide,
   batch_count_float_partition 5 2 (by decide) (by decide) (by decide)⟩

/-! ### Claim C5 — callable `batch_size` policy -/

/-- Partial sums of the batch-size function over `[i, i+m)`. -/
def fnSeg (f : ℕ → ℕ) (i m : ℕ) : ℕ := ((List.range' i m).map f).sum

theorem fnSeg_zero (f : ℕ → ℕ) (i : ℕ) : fnSeg f i 0 = 0 := rfl

theorem fnSeg_succ_left (f : ℕ → ℕ) (i m : ℕ) :
    fnSeg f i (m + 1) = f i + fnSeg f (i + 1) m := by
  simp [fnSeg, List.range'_succ]

/-- Characterization of the `while remaining_interactions > next_batch_size`
loop: when every batch size is positive and the fuel dominates the
remaining budget, the loop emits `f i, f (i+1), ...` exactly while the
budget strictly exceeds the next size. -/
theorem batchSizesFnGo_spec (f : ℕ → ℕ) (hf : ∀ j, 0 < f j) :
    ∀ fuel rem i, rem < fuel →
      ∃ c, batchSizesFnGo fuel rem i f = (List.range' i c).map f ∧
        (∀ m, m < c → fnSeg f i m + f (i + m) < rem) ∧
        ¬ (fnSeg f i c + f (i + c) < rem) := by
  intro fuel
  induction fuel with
  | zero => intro rem i h; omega
  | succ fuel ih =>
    intro rem i hrem
    by_cases h : f i < rem
    · have hfi := hf i
      have hrec : rem - f i < fuel := by omega
      obtain ⟨c, hEq, hCond, hStop⟩ := ih (rem - f i) (i + 1) hrec
      refine ⟨c + 1, ?_, ?_, ?_⟩
      · show (if f i < rem then f i :: batchSizesFnGo fuel (rem - f i) (i + 1) f else []) = _
        rw [if_pos h, hEq, List.range'_succ, List.map_cons]
      · intro m hm
        cases m with
        | zero => simpa [fnSeg_zero] using h
        | succ m =>
          have := hCond m (by omega)
          rw [fnSeg_succ_left]
          have harith : i + (m + 1) = (i + 1) + m := by omega
          rw [harith]
          omega
      · intro hcontra
        rw [fnSeg_succ_left] at hcontra
        have harith : i + (c + 1) = (i + 1) + c := by omega
        rw [harith] at hcontra
        exact hStop (by omega)
    · refine ⟨0, ?_, by omega, ?_⟩
      · show (if f i < rem then f i :: batchSizesFnGo fuel (rem - f i) (i + 1) f else []) = _
        rw [if_neg h]
        rfl
      · simpa [fnSeg_zero] using h

/-- Claim C5 counterexample: with `N = 6` and `fn` constantly `3`, the
callable-policy schedule is `[3]`, not `[3, 3]` — the loop condition
`remaining > next` is strict, so a batch whose size exactly equals the
remaining budget is dropped. -/
theorem batch_size_fn_exact_fit_dropped :
    batchSizesFn 6 (fun _ => 3) = [3] ∧ batchSizesFn 6 (fun _ => 3) ≠ [3, 3] := by
  decide

/-- Claim C5 (amended): for every interaction count `N` and every
positive batch-size function `fn`, the schedule is the maximal prefix
`fn 0, fn 1, ...` in which each batch is funded with the **strict**
inequality `consumed + fn i < N`; the first batch that would merely
exactly exhaust the budget (or overflow it) is dropped. -/
theorem batch_size_fn_strict_greedy (n : ℕ) (f : ℕ → ℕ) (hf : ∀ i, 0 < f i) :
    ∃ c, batchSizesFn n f = (List.range' 0 c).map f ∧
      (∀ m, m < c → fnSeg f 0 m + f m < n) ∧
      ¬ (fnSeg f 0 c + f c < n) := by
  obtain ⟨c, hEq, hCond, hStop⟩ := batchSizesFnGo_spec f hf (n + 1) n 0 (by omega)
  exact ⟨c, hEq, by simpa using hCond, by simpa using hStop⟩

/-- Witness for claim C5's amended theorem at `N = 5`, `fn ≡ 2`. -/
theorem batch_size_fn_strict_greedy_witness :
    (∀ i : ℕ, 0 < (fun _ : ℕ => 2) i) ∧
    (∃ c, batchSizesFn 5 (fun _ : ℕ => 2) = (List.range' 0 c).map (fun _ : ℕ => 2) ∧
      (∀ m, m < c → fnSeg (fun _ : ℕ => 2) 0 m + (fun _ : ℕ => 2) m < 5) ∧
      ¬ (fnSeg (fun _ : ℕ => 2) 0 c + (fun _ : ℕ => 2) c < 5)) :=
  ⟨fun _ => Nat.zero_lt_two, batch_size_fn_strict_greedy 5 (fun _ => 2) (fun _ => Nat.zero_lt_two)⟩

/-! ## DiskCacher key validation — `coba/contexts/cachers.py`

`DiskCacher._cache_name` checks
`all(c.isalnum() or c in (' ','.','_') for c in key)` and raises
`CobaException` otherwise; on success the cache file name is
`f"{key}.gz"`.  Python strings are modelled as `List Char`.  The
character test is parameterized by the `isalnum` predicate:
`_cache_name` is `cacheNameWith` applied to Python's Unicode
`str.isalnum`, whose restriction to ASCII characters is exactly
`Char.isAlphanum` (on non-ASCII characters Python's predicate also
accepts further alphanumerics, which `Char.isAlphanum` does not model,
so theorems about `cacheName` are stated on ASCII keys). -/

/-- `DiskCacher._cache_name(key)` with the per-character `isalnum`
test abstracted. -/
def cacheNameWith (isalnum : Char → Bool) (key : List Char) : Except PyErr (List Char) :=
  if key.all (fun c => isalnum c || c == ' ' || c == '.' || c == '_') then
    .ok (key ++ ['.', 'g', 'z'])
  else
    .error (.cobaException "A key was given to DiskCacher which couldn't be made into a file")

/-- `DiskCacher._cache_name(key)` on ASCII keys, where `Char.isAlphanum`
coincides with Python's `str.isalnum`. -/
def cacheName : List Char → Except PyErr (List Char) :=
  cacheNameWith Char.isAlphanum

/-- The spec's character class `[A-Za-z0-9 ._]`, one character at a time. -/
def specKeyChar (c : Char) : Bool :=
  (decide ('A' ≤ c) && decide (c ≤ 'Z')) || (decide ('a' ≤ c) && decide (c ≤ 'z')) ||
    (decide ('0' ≤ c) && decide (c ≤ '9')) || c == ' ' || c == '.' || c == '_'

theorem cacheChar_eq_specKeyChar (c : Char) :
    (c.isAlphanum || c == ' ' || c == '.' || c == '_') = specKeyChar c := by
  have h1 : c.isAlphanum
      = ((decide ('A' ≤ c) && decide (c ≤ 'Z')) || (decide ('a' ≤ c) && decide (c ≤ 'z')) ||
          (decide ('0' ≤ c) && decide (c ≤ '9'))) := by
    show (c.isUpper || c.isLower || c.isDigit) = _
    rfl
  rw [specKeyChar, h1]

/-- Claim C7 counterexample: the empty key — which the claimed regex
`[A-Za-z0-9 ._]+` rejects — is accepted by `DiskCacher._cache_name`
(`all(...)` over an empty string is vacuously true, whatever the
per-character predicate is), producing the cache file name `".gz"`
instead of raising. -/
theorem cacheName_empty_accepted : cacheName [] = .ok ['.', 'g', 'z'] := rfl

/-- Claim C7 (amended): restricted to ASCII keys — the domain on which
`Char.isAlphanum` is Python's `str.isalnum` — `DiskCacher._cache_name`
accepts a key exactly when **every** character is alphanumeric or one
of space/dot/underscore, i.e. exactly the keys matching
`[A-Za-z0-9 ._]*`.  Zero characters qualify, so the empty key is
accepted rather than rejected.  (On non-ASCII keys, outside this
embedding, Python's Unicode `isalnum` accepts further alphanumeric
characters that the claimed regex rejects.) -/
theorem cacheName_accepts_iff (key : List Char) (_hascii : ∀ c ∈ key, c.toNat < 128) :
    (cacheName key).isOk = key.all specKeyChar := by
  have hpt : (key.all fun c => c.isAlphanum || c == ' ' || c == '.' || c == '_')
      = key.all specKeyChar := by
    have : (fun c => c.isAlphanum || c == ' ' || c == '.' || c == '_') = specKeyChar := by
      funext c
      exact cacheChar_eq_specKeyChar c
    rw [this]
  unfold cacheName cacheNameWith
  by_cases h : (key.all fun c => c.isAlphanum || c == ' ' || c == '.' || c == '_') = true
  · rw [if_pos h, ← hpt, h]
    rfl
  · rw [if_neg h, ← hpt]
    cases hAll : key.all fun c => c.isAlphanum || c == ' ' || c == '.' || c == '_'
    · rfl
    · exact absurd hAll h

/-- Witness for claim C7's amended theorem on a concrete ASCII key. -/
theorem cacheName_accepts_iff_witness :
    (∀ c ∈ ['A', 'b', ' ', '.', '_', '3'], c.toNat < 128) ∧
    ((cacheName ['A', 'b', ' ', '.', '_', '3']).isOk
      = ['A', 'b', ' ', '.', '_', '3'].all specKeyChar) :=
  ⟨by decide, cacheName_accepts_iff ['A', 'b', ' ', '.', '_', '3'] (by decide)⟩

/-! ## ConcurrentCacher lock protocol — `coba/contexts/cachers.py`

Per-key integer lock state in the shared dict: absent (`none`),
`some v` with `v ≥ 0` counting active readers, `some (-1)` for the
exclusive writer.  The five primitive lock operations are embedded from
the source methods.  Clients (callers of `get`/`put`/`rmv`/`get_put`,
including lazily drained generators from `_generator_release`) are
modelled by what they hold: the source only ever calls
`_release_read_lock` from a holder of a read lock, and
`_release_write_lock` / `_switch_write_to_read_lock` from the holder of
the write lock, which appears as the side conditions of the step
relation. -/

/-- `ConcurrentCacher._acquired_read_lock`: succeeds iff the key is
absent or the entry is `>= 0`; on success `dict[key] = dict.get(key,0)+1`. -/
def acquiredReadLock : Option ℤ → Option ℤ × Bool
  | none => (some 1, true)
  | some v => if 0 ≤ v then (some (v + 1), true) else (some v, false)

/-- `ConcurrentCacher._acquired_write_lock`: succeeds iff the key is
absent or the entry is `0`; on success `dict[key] = -1`. -/
def acquiredWriteLock : Option ℤ → Option ℤ × Bool
  | none => (some (-1), true)
  | some v => if v = 0 then (some (-1), true) else (some v, false)

/-- `ConcurrentCacher._release_read_lock`: `self._dict[key] -= 1`
(the key is present whenever a read lock is held). -/
def releaseReadLock (v : ℤ) : Option ℤ := some (v - 1)

/-- `ConcurrentCacher._release_write_lock`: `self._dict[key] = 0`. -/
def releaseWriteLock : Option ℤ := some 0

/-- `ConcurrentCacher._switch_write_to_read_lock`: `self._dict[key] = 1`. -/
def switchWriteToReadLock : Option ℤ := some 1

/-- One client's holdings on the key: how many read locks (several can
be outstanding while returned generators are still being drained) and
whether it holds the write lock. -/
structure LockClient where
  reads : ℕ
  writes : Bool
deriving DecidableEq, Repr

/-- Global state for one cache key: the dict entry and all clients. -/
structure LockSys (n : ℕ) where
  lock : Option ℤ
  clients : Fin n → LockClient

/-- The writer indicator of a client. -/
def wInd (c : LockClient) : ℕ := if c.writes then 1 else 0

/-- Total read locks currently held by a family of clients. -/
def readerTot (cs : Fin n → LockClient) : ℕ := ∑ i, (cs i).reads

/-- Number of clients in a family holding the write lock. -/
def writerTot (cs : Fin n → LockClient) : ℕ := ∑ i, wInd (cs i)

/-- Total read locks currently held across clients. -/
def readerCount (s : LockSys n) : ℕ := readerTot s.clients

/-- Number of clients currently holding the write lock. -/
def writerCount (s : LockSys n) : ℕ := writerTot s.clients

/-- Interleaving semantics of the `ConcurrentCacher` operations: any
client may perform the next primitive lock action of whichever
operation it is running, subject to the acquire guards (a failed
attempt loops in `_acquire_*_lock` and leaves the state unchanged) and
to the call-site discipline on releases. -/
inductive LockStep : LockSys n → LockSys n → Prop
  | acqRead (s : LockSys n) (i : Fin n)
      (h : (acquiredReadLock s.lock).2 = true) :
      LockStep s ⟨(acquiredReadLock s.lock).1,
        Function.update s.clients i ⟨(s.clients i).reads + 1, (s.clients i).writes⟩⟩
  | acqWrite (s : LockSys n) (i : Fin n)
      (h : (acquiredWriteLock s.lock).2 = true) :
      LockStep s ⟨(acquiredWriteLock s.lock).1,
        Function.update s.clients i ⟨(s.clients i).reads, true⟩⟩
  | relRead (s : LockSys n) (i : Fin n) (v : ℤ) (hv : s.lock = some v)
      (hold : 0 < (s.clients i).reads) :
      LockStep s ⟨releaseReadLock v,
        Function.update s.clients i ⟨(s.clients i).reads - 1, (s.clients i).writes⟩⟩
  | relWrite (s : LockSys n) (i : Fin n) (hold : (s.clients i).writes = true) :
      LockStep s ⟨releaseWriteLock,
        Function.update s.clients i ⟨(s.clients i).reads, false⟩⟩
  | downgrade (s : LockSys n) (i : Fin n) (hold : (s.clients i).writes = true) :
      LockStep s ⟨switchWriteToReadLock,
        Function.update s.clients i ⟨(s.clients i).reads + 1, false⟩⟩

/-- Initial state: the key is absent and no client holds anything. -/
def lockInit (n : ℕ) : LockSys n := ⟨none, fun _ => ⟨0, false⟩⟩

/-- The protocol invariant: the dict entry is absent, a reader count, or
the writer mark, and it agrees with what the clients hold. -/
def LockInv (s : LockSys n) : Prop :=
  (s.lock = none ∧ readerCount s = 0 ∧ writerCount s = 0) ∨
  (∃ v : ℕ, s.lock = some (v : ℤ) ∧ readerCount s = v ∧ writerCount s = 0) ∨
  (s.lock = some (-1) ∧ readerCount s = 0 ∧ writerCount s = 1)

theorem sum_update_add (f : Fin n → ℕ) (i : Fin n) (c : ℕ) :
    (∑ j, Function.update f i c j) + f i = (∑ j, f j) + c := by
  classical
  rw [Finset.sum_update_of_mem (Finset.mem_univ i)]
  have h1 : (∑ j ∈ Finset.univ.erase i, f j) + f i = ∑ j, f j :=
    Finset.sum_erase_add _ _ (Finset.mem_univ i)
  rw [← Finset.sdiff_singleton_eq_erase] at h1
  omega

theorem readerTot_update (cs : Fin n → LockClient) (i : Fin n) (c : LockClient) :
    readerTot (Function.update cs i c) + (cs i).reads = readerTot cs + c.reads := by
  unfold readerTot
  have h : (fun j => (Function.update cs i c j).reads)
      = Function.update (fun j => (cs j).reads) i c.reads := by
    funext j
    by_cases hj : j = i
    · subst hj; simp
    · simp [Function.update_noteq hj]
  simp only [h]
  exact sum_update_add _ i _

theorem writerTot_update (cs : Fin n → LockClient) (i : Fin n) (c : LockClient) :
    writerTot (Function.update cs i c) + wInd (cs i) = writerTot cs + wInd c := by
  unfold writerTot
  have h : (fun j => wInd (Function.update cs i c j))
      = Function.update (fun j => wInd (cs j)) i (wInd c) := by
    funext j
    by_cases hj : j = i
    · subst hj; simp
    · simp [Function.update_noteq hj]
  simp only [h]
  exact sum_update_add _ i _

theorem readerTot_le (cs : Fin n → LockClient) (i : Fin n) :
    (cs i).reads ≤ readerTot cs :=
  Finset.single_le_sum (f := fun j => (cs j).reads)
    (fun _ _ => Nat.zero_le _) (Finset.mem_univ i)

theorem writerTot_le (cs : Fin n → LockClient) (i : Fin n) :
    wInd (cs i) ≤ writerTot cs :=
  Finset.single_le_sum (f := fun j => wInd (cs j))
    (fun _ _ => Nat.zero_le _) (Finset.mem_univ i)

theorem lockInv_init (n : ℕ) : LockInv (lockInit n) := by
  left
  refine ⟨rfl, ?_, ?_⟩ <;>
    simp [readerCount, writerCount, readerTot, writerTot, lockInit, wInd]

theorem lockInv_step {s s' : LockSys n} (hinv : LockInv s) (hstep : LockStep s s') :
    LockInv s' := by
  cases hstep with
  | acqRead i h =>
    have hr := readerTot_update s.clients i ⟨(s.clients i).reads + 1, (s.clients i).writes⟩
    have hw := writerTot_update s.clients i ⟨(s.clients i).reads + 1, (s.clients i).writes⟩
    dsimp only at hr hw
    have hwe : wInd ⟨(s.clients i).reads + 1, (s.clients i).writes⟩ = wInd (s.clients i) := by
      unfold wInd
      rfl
    rw [hwe] at hw
    simp only [LockInv, readerCount, writerCount] at hinv ⊢
    cases hl : s.lock with
    | none =>
      rw [hl] at hinv
      simp only [acquiredReadLock]
      rcases hinv with ⟨_, hR, hW⟩ | ⟨v, hv, _, _⟩ | ⟨hv, _, _⟩
      · exact Or.inr (Or.inl ⟨1, by norm_num, by omega, by omega⟩)
      · exact absurd hv (by simp)
      · exact absurd hv (by simp)
    | some v =>
      rw [hl] at h hinv
      have hv0 : 0 ≤ v := by
        by_contra hneg
        simp [acquiredReadLock, hneg] at h
      simp only [acquiredReadLock, if_pos hv0]
      rcases hinv with ⟨hv, _, _⟩ | ⟨m, hm, hR, hW⟩ | ⟨hv, _, _⟩
      · exact absurd hv (by simp)
      · have hvm : v = (m : ℤ) := by injection hm
        subst hvm
        refine Or.inr (Or.inl ⟨m + 1, ?_, by omega, by omega⟩)
        congr 1
      · have : v = -1 := by injection hv
        omega
  | acqWrite i h =>
    have hr := readerTot_update s.clients i ⟨(s.clients i).reads, true⟩
    have hw := writerTot_update s.clients i ⟨(s.clients i).reads, true⟩
    dsimp only at hr hw
    have hwe : wInd ⟨(s.clients i).reads, true⟩ = 1 := rfl
    rw [hwe] at hw
    have hWi : wInd (s.clients i) ≤ writerTot s.clients := writerTot_le s.clients i
    simp only [LockInv, readerCount, writerCount] at hinv ⊢
    cases hl : s.lock with
    | none =>
      rw [hl] at hinv
      simp only [acquiredWriteLock]
      rcases hinv with ⟨_, hR, hW⟩ | ⟨v, hv, _, _⟩ | ⟨hv, _, _⟩
      · refine Or.inr (Or.inr ⟨by trivial, by omega, by omega⟩)
      · exact absurd hv (by simp)
      · exact absurd hv (by simp)
    | some v =>
      rw [hl] at h hinv
      have hv0 : v = 0 := by
        by_contra hneg
        simp [acquiredWriteLock, hneg] at h
      subst hv0
      simp only [acquiredWriteLock, if_pos rfl]
      rcases hinv with ⟨hv, _, _⟩ | ⟨m, hm, hR, hW⟩ | ⟨hv, _, _⟩
      · exact absurd hv (by simp)
      · have hm0 : (0 : ℤ) = (m : ℤ) := by injection hm
        have hmz : m = 0 := by exact_mod_cast hm0.symm
        subst hmz
        refine Or.inr (Or.inr ⟨by trivial, by omega, by omega⟩)
      · have : (0 : ℤ) = -1 := by injection hv
        omega
  | relRead i v hv hold =>
    have hr := readerTot_update s.clients i ⟨(s.clients i).reads - 1, (s.clients i).writes⟩
    have hw := writerTot_update s.clients i ⟨(s.clients i).reads - 1, (s.clients i).writes⟩
    dsimp only at hr hw
    have hwe : wInd ⟨(s.clients i).reads - 1, (s.clients i).writes⟩ = wInd (s.clients i) := by
      unfold wInd
      rfl
    rw [hwe] at hw
    have hRi : (s.clients i).reads ≤ readerTot s.clients := readerTot_le s.clients i
    simp only [LockInv, readerCount, writerCount] at hinv ⊢
    rw [hv] at hinv
    rcases hinv with ⟨hl, _, _⟩ | ⟨m, hm, hR, hW⟩ | ⟨hl, hR, _⟩
    · exact absurd hl (by simp)
    · have hvm : v = (m : ℤ) := by injection hm
      subst hvm
      have hm1 : 1 ≤ m := by omega
      refine Or.inr (Or.inl ⟨m - 1, ?_, by omega, by omega⟩)
      unfold releaseReadLock
      congr 1
      omega
    · have : v = -1 := by injection hl
      omega
  | relWrite i hold =>
    have hr := readerTot_update s.clients i ⟨(s.clients i).reads, false⟩
    have hw := writerTot_update s.clients i ⟨(s.clients i).reads, false⟩
    dsimp only at hr hw
    have hwe : wInd ⟨(s.clients i).reads, false⟩ = 0 := rfl
    rw [hwe] at hw
    have hWi1 : wInd (s.clients i) = 1 := by simp [wInd, hold]
    rw [hWi1] at hw
    have hWi : wInd (s.clients i) ≤ writerTot s.clients := writerTot_le s.clients i
    rw [hWi1] at hWi
    simp only [LockInv, readerCount, writerCount] at hinv ⊢
    rcases hinv with ⟨_, _, hW⟩ | ⟨m, hm, hR, hW⟩ | ⟨hl, hR, hW⟩
    · omega
    · omega
    · refine Or.inr (Or.inl ⟨0, by trivial, by omega, by omega⟩)
  | downgrade i hold =>
    have hr := readerTot_update s.clients i ⟨(s.clients i).reads + 1, false⟩
    have hw := writerTot_update s.clients i ⟨(s.clients i).reads + 1, false⟩
    dsimp only at hr hw
    have hwe : wInd ⟨(s.clients i).reads + 1, false⟩ = 0 := rfl
    rw [hwe] at hw
    have hWi1 : wInd (s.clients i) = 1 := by simp [wInd, hold]
    rw [hWi1] at hw
    have hWi : wInd (s.clients i) ≤ writerTot s.clients := writerTot_le s.clients i
    rw [hWi1] at hWi
    simp only [LockInv, readerCount, writerCount] at hinv ⊢
    rcases hinv with ⟨_, _, hW⟩ | ⟨m, hm, hR, hW⟩ | ⟨hl, hR, hW⟩
    · omega
    · omega
    · refine Or.inr (Or.inl ⟨1, by trivial, by omega, by omega⟩)

/-- States of the per-key lock reachable from the idle initial state by
interleaved `ConcurrentCacher` operations. -/
def LockReachable (n : ℕ) (s : LockSys n) : Prop :=
  Relation.ReflTransGen LockStep (lockInit n) s

theorem lockInv_reachable {n : ℕ} {s : LockSys n} (h : LockReachable n s) : LockInv s := by
  induction h with
  | refl => exact lockInv_init n
  | tail _ hstep ih => exact lockInv_step ih hstep

/-- Claim C8 (confirmed): along every interleaved sequence of
`ConcurrentCacher` operations (`get`, `put`, `rmv`, `get_put`,
including deferred read-lock releases of drained generators), the
per-key state stays in `{absent} ∪ {0,1,2,...} ∪ {-1}`; while the
writer mark `-1` is set there are no outstanding read locks and exactly
one writer, so readers and the writer exclude each other; there is
never more than one writer; and `_acquired_write_lock` succeeds exactly
when the key is absent or `0`. -/
theorem concurrent_cacher_lock_protocol (n : ℕ) (s : LockSys n)
    (h : LockReachable n s) :
    (s.lock = none ∨ (∃ v : ℕ, s.lock = some (v : ℤ)) ∨ s.lock = some (-1)) ∧
    (s.lock = some (-1) → readerCount s = 0 ∧ writerCount s = 1) ∧
    writerCount s ≤ 1 ∧
    (∀ t : Option ℤ, (acquiredWriteLock t).2 = true ↔ (t = none ∨ t = some 0)) := by
  have hinv := lockInv_reachable h
  refine ⟨?_, ?_, ?_, ?_⟩
  · rcases hinv with ⟨hl, _, _⟩ | ⟨v, hv, _, _⟩ | ⟨hl, _, _⟩
    exacts [Or.inl hl, Or.inr (Or.inl ⟨v, hv⟩), Or.inr (Or.inr hl)]
  · intro hw
    rcases hinv with ⟨hl, _, _⟩ | ⟨v, hv, hR, hW⟩ | ⟨hl, hR, hW⟩
    · rw [hl] at hw
      exact absurd hw (by simp)
    · rw [hv] at hw
      have : (v : ℤ) = -1 := by injection hw
      omega
    · exact ⟨hR, hW⟩
  · rcases hinv with ⟨_, _, hW⟩ | ⟨v, _, _, hW⟩ | ⟨_, _, hW⟩ <;> omega
  · intro t
    cases t with
    | none => simp [acquiredWriteLock]
    | some v => by_cases hv : v = 0 <;> simp [acquiredWriteLock, hv]

/-- Witness for claim C8's theorem: two clients in the idle initial
state (reachable by the empty schedule). -/
theorem concurrent_cacher_lock_protocol_witness :
    LockReachable 2 (lockInit 2) ∧
    (((lockInit 2).lock = none ∨ (∃ v : ℕ, (lockInit 2).lock = some (v : ℤ)) ∨
        (lockInit 2).lock = some (-1)) ∧
      ((lockInit 2).lock = some (-1) → readerCount (lockInit 2) = 0 ∧ writerCount (lockInit 2) = 1) ∧
      writerCount (lockInit 2) ≤ 1 ∧
      (∀ t : Option ℤ, (acquiredWriteLock t).2 = true ↔ (t = none ∨ t = some 0))) :=
  ⟨Relation.ReflTransGen.refl,
    concurrent_cacher_lock_protocol 2 (lockInit 2) Relation.ReflTransGen.refl⟩

/-! ## LinearSyntheticSimulation — `coba/environments/simulated/synthetics.py`

`LinearSyntheticSimulation.__init__` builds
`weights = normalize(rng.randoms(feature_count))` where
`normalize = lambda X: [ rng.random()*x/sum(X) for x in X]` — note the
extra fresh `rng.random()` factor on every entry.  `CobaRandom` is the
LCG of `coba/random.py` (`Random`); `rng.random()` draws one uniform
and advances the state once.  The reward closure computes
`min(1, max(0, sum(w*f) + e))` with `e = (rng.random()-1/2)*sqrt(12)*sqrt(r_noise_var)`;
`e` is kept as a parameter of the embedding because its square roots
are irrational (its value does not affect the clamping). -/

/-- Modelled from the spec: `InteractionsEncoder` (module
`coba.encodings`) is not under `src/`.  Per §4.5 the encoder is
"parameterized by a list of term shapes (`"a"`, `"xa"`, `"x"`, …)";
each term (a word over letters `x`/`a`) contributes all products of one
feature per letter — context features for `x`, action features for `a` —
and the terms' features are concatenated. -/
def encodeTerm (x a : List ℚ) : List Char → List ℚ
  | [] => [1]
  | c :: cs => (encodeTerm x a cs).flatMap fun p => (if c = 'x' then x else a).map fun f => p * f

/-- Modelled from the spec: `InteractionsEncoder(terms).encode(x=..., a=...)`. -/
def interactionsEncode (terms : List (List Char)) (x a : List ℚ) : List ℚ :=
  terms.flatMap (encodeTerm x a)

/-- The list comprehension of `normalize`: one fresh `rng.random()` per
element, times `x / sum(X)` (the sum of the original draw vector). -/
def normalizeGo (sumX : ℚ) : ℕ → List ℚ → List ℚ × ℕ
  | s, [] => ([], s)
  | s, x :: xs =>
    let s' := lcgNext s
    let rest := normalizeGo sumX s' xs
    (lcgUniform s' * x / sumX :: rest.1, rest.2)

/-- The weight vector of `LinearSyntheticSimulation.__init__`:
`weights = normalize(rng.randoms(feature_count))` with `rng = CobaRandom(seed)`. -/
def linWeights (seed fc : ℕ) : List ℚ :=
  (normalizeGo (randomsFrom seed fc).1.sum (randomsFrom seed fc).2 (randomsFrom seed fc).1).1

/-- The weight vector as built by the constructor from its parameters:
`feature_count = len(X_encoder.encode(x=dummy_context, a=dummy_action))`
with `dummy_context = range(max(1, n_context_feats))` and
`dummy_action = range(n_action_feats) if n_action_feats else range(n_actions)`. -/
def linearSyntheticWeights (nActions nContextFeats nActionFeats : ℕ)
    (terms : List (List Char)) (seed : ℕ) : List ℚ :=
  let dummyContext := (List.range (max 1 nContextFeats)).map fun i => (i : ℚ)
  let dummyAction :=
    if nActionFeats ≠ 0 then (List.range nActionFeats).map (fun i => (i : ℚ))
    else (List.range nActions).map fun i => (i : ℚ)
  linWeights seed (interactionsEncode terms dummyContext dummyAction).length

/-- The per-interaction reward of `LinearSyntheticSimulation`:
`X = context or [1]`, `F = X_encoder.encode(x=X, a=A)`,
`r = sum([w*f for w,f in zip(W,F)])`, result `min(1, max(0, r+e))`. -/
def linReward (w : List ℚ) (terms : List (List Char)) (x a : List ℚ) (e : ℚ) : ℚ :=
  let X := if x = [] then [1] else x
  let F := interactionsEncode terms X a
  let r := ((w.zip F).map fun p => p.1 * p.2).sum
  min 1 (max 0 (r + e))

theorem randomsFrom_mem_bounds (n : ℕ) :
    ∀ (s : ℕ), ∀ q ∈ (randomsFrom s n).1, 0 ≤ q ∧ q ≤ 1 := by
  induction n with
  | zero => intro s q hq; simp [randomsFrom] at hq
  | succ n ih =>
    intro s q hq
    simp only [randomsFrom, List.mem_cons] at hq
    rcases hq with rfl | hq
    · exact ⟨lcgUniform_nonneg _, lcgUniform_le_one (lcgNext_lt s)⟩
    · exact ih (lcgNext s) q hq

theorem normalizeGo_sum_bounds (sumX : ℚ) (hS : 0 < sumX) :
    ∀ (xs : List ℚ) (s : ℕ), (∀ x ∈ xs, 0 ≤ x) →
      0 ≤ (normalizeGo sumX s xs).1.sum ∧
        (normalizeGo sumX s xs).1.sum ≤ xs.sum / sumX := by
  intro xs
  induction xs with
  | nil => intro s _; simp [normalizeGo]
  | cons x xs ih =>
    intro s hmem
    have hx : 0 ≤ x := hmem x (by simp)
    have hu0 : 0 ≤ lcgUniform (lcgNext s) := lcgUniform_nonneg _
    have hu1 : lcgUniform (lcgNext s) ≤ 1 := lcgUniform_le_one (lcgNext_lt s)
    have hrest := ih (lcgNext s) (by intro y hy; exact hmem y (by simp [hy]))
    have hterm0 : 0 ≤ lcgUniform (lcgNext s) * x / sumX := by positivity
    have hux : lcgUniform (lcgNext s) * x ≤ x := by nlinarith
    have hterm1 : lcgUniform (lcgNext s) * x / sumX ≤ x / sumX := by
      gcongr
    constructor
    · simp only [normalizeGo, List.sum_cons]
      have := hrest.1
      linarith
    · simp only [normalizeGo, List.sum_cons]
      have h2 := hrest.2
      calc lcgUniform (lcgNext s) * x / sumX + (normalizeGo sumX (lcgNext s) xs).1.sum
          ≤ x / sumX + xs.sum / sumX := by linarith
        _ = (x + xs.sum) / sumX := div_add_div_same x xs.sum sumX

/-- Claim C9 counterexample: with `n_context_feats = 1`,
`n_action_feats = 1`, `interactions = ["a"]` (so `feature_count = 1`)
and `seed = 1`, the constructed weight vector does **not** sum to 1 —
`normalize` multiplies each entry by a fresh `rng.random()` draw, so the
single weight equals that draw (`x/sum(X) = 1` here), which is
`lcgNext(lcgNext 1) / (2^30 - 1) ≠ 1`. -/
theorem linear_synthetic_weights_sum_ne_one :
    (linearSyntheticWeights 2 1 1 [['a']] 1).sum ≠ 1 := by
  norm_num [linearSyntheticWeights, interactionsEncode, encodeTerm, linWeights,
    randomsFrom, normalizeGo, lcgUniform, lcgNext, lcgM]

/-- Claim C9 (amended): the weight vector drawn at construction has
entries `rng.random() * x / sum(X)`, so it sums to **at most** 1 (not
exactly 1; it is a random fraction of 1), and the emitted reward is
exactly the dot product of the weights with the encoded
(context, action) features plus the noise value, clamped to `[0, 1]`. -/
theorem linear_synthetic_weights_and_reward (seed fc : ℕ)
    (hS : 0 < (randomsFrom seed fc).1.sum) :
    (0 ≤ (linWeights seed fc).sum ∧ (linWeights seed fc).sum ≤ 1) ∧
    (∀ (w x a : List ℚ) (terms : List (List Char)) (e : ℚ),
      0 ≤ linReward w terms x a e ∧ linReward w terms x a e ≤ 1 ∧
      linReward w terms x a e
        = min 1 (max 0 (((w.zip (interactionsEncode terms
            (if x = [] then [1] else x) a)).map fun p => p.1 * p.2).sum + e))) := by
  constructor
  · have hmem : ∀ q ∈ (randomsFrom seed fc).1, 0 ≤ q := by
      intro q hq
      exact (randomsFrom_mem_bounds fc seed q hq).1
    have := normalizeGo_sum_bounds (randomsFrom seed fc).1.sum hS
      (randomsFrom seed fc).1 (randomsFrom seed fc).2 hmem
    refine ⟨this.1, ?_⟩
    have h2 := this.2
    rw [div_self (ne_of_gt hS)] at h2
    exact h2
  · intro w x a terms e
    refine ⟨?_, ?_, rfl⟩
    · unfold linReward
      exact le_min (by norm_num) (le_max_left 0 _)
    · unfold linReward
      exact min_le_left 1 _

/-- Witness for claim C9's amended theorem at `seed = 1`, `feature_count = 1`. -/
theorem linear_synthetic_weights_and_reward_witness :
    0 < (randomsFrom 1 1).1.sum ∧
    ((0 ≤ (linWeights 1 1).sum ∧ (linWeights 1 1).sum ≤ 1) ∧
    (∀ (w x a : List ℚ) (terms : List (List Char)) (e : ℚ),
      0 ≤ linReward w terms x a e ∧ linReward w terms x a e ≤ 1 ∧
      linReward w terms x a e
        = min 1 (max 0 (((w.zip (interactionsEncode terms
            (if x = [] then [1] else x) a)).map fun p => p.1 * p.2).sum + e)))) :=
  ⟨by norm_num [randomsFrom, lcgUniform, lcgNext, lcgM],
   linear_synthetic_weights_and_reward 1 1
     (by norm_num [randomsFrom, lcgUniform, lcgNext, lcgM])⟩

/-! ## The benchmark evaluation loop — `coba/benchmarks.py`

`UniversalBenchmark.evaluate` over the module's in-memory simulations
(`MemorySimulation` of `coba/simulations.py`; `LambdaSimulation` and
`ClassificationSimulation` construct one).  The embedding keeps the two
structural facts of the source that decide the claims:

* the whole per-simulation body sits inside one `try`, whose `except`
  logs `f"     * {e}"` and moves on to the **next simulation** — the
  learner-factory loop is inside the `try`;
* `batch_indexes` is a single Python iterator created once per
  simulation and consumed by `zip` inside the learner loop, and line 228
  reads `simulation.rewards(...)` although every simulation class
  defines only `reward` (singular), so the attribute lookup raises
  `AttributeError`. -/

/-- Hashable Python values used for contexts and actions. -/
inductive PyVal where
  | pynone
  | pyint (n : ℤ)
  | pystr (s : String)
  | pytup (l : List PyVal)

/-- `Interaction` from `coba/simulations.py`. -/
structure PyInteraction where
  key : ℕ
  context : PyVal
  actions : List PyVal

/-- `MemorySimulation.__init__` data: interactions and per-interaction
reward sets (one reward per action). -/
structure MemorySim where
  interactions : List PyInteraction
  rewardSets : List (List ℚ)

/-- The `self._rewards` dict of `MemorySimulation.__init__`:
`dict(zip(chain([(i.key, a) ...]), chain(reward_sets)))`. -/
def MemorySim.rewardPairs (sim : MemorySim) : List ((ℕ × ℕ) × ℚ) :=
  (sim.interactions.flatMap fun i =>
    (List.range i.actions.length).map fun a => (i.key, a)).zip sim.rewardSets.flatten

/-- `MemorySimulation.reward` (note the **singular** name — this is the
only reward accessor defined by any `Simulation` class).  Lookup in the
dict; a missing `(key, choice)` pair raises `KeyError`.  A duplicate
key in `dict(zip(...))` keeps the last binding, hence the reversed
search. -/
def MemorySim.reward (sim : MemorySim) (choices : List (ℕ × ℕ)) :
    Except PyErr (List ℚ) :=
  choices.mapM fun c =>
    match sim.rewardPairs.reverse.find? (fun p => p.1 == c) with
    | some p => .ok p.2
    | none => .error .keyError

/-- The learner contract consumed by the loop (`coba/learners`, out of
scope per the spec §4.6): `choose`, `learn`, and a `name` property
whose exception is swallowed by `_safe_name`. -/
structure PyLearner where
  choose : ℕ → PyVal → List PyVal → Except PyErr ℕ
  learn : ℕ → PyVal → PyVal → ℚ → Except PyErr Unit
  name : Except PyErr String

/-- `UniversalBenchmark._safe_name`: the learner's `name`, or the
positional index if reading it raises. -/
def safeName (idx : ℕ) (L : PyLearner) : String :=
  match L.name with
  | .ok s => s
  | .error _ => toString idx

/-- Modelled from the spec: `SummaryStats.from_observations` lives in
`coba.statistics`, which is not under `src/`.  Per §4.8 it records `n`,
the arithmetic mean, the sample variance (divisor `n-1` when `n > 1`,
else 0), min and max. -/
structure SummaryStats where
  n : ℕ
  mean : ℚ
  variance : ℚ
  minimum : ℚ
  maximum : ℚ
deriving DecidableEq, Repr

/-- Modelled from the spec: `SummaryStats.from_observations(xs)` (§4.8). -/
def SummaryStats.fromObservations (xs : List ℚ) : SummaryStats :=
  let n := xs.length
  let mean := xs.sum / (n : ℚ)
  { n := n
    mean := mean
    variance := if 1 < n then (xs.map fun x => (x - mean) ^ 2).sum / ((n : ℚ) - 1) else 0
    minimum := (xs.foldr min (xs.headD 0))
    maximum := (xs.foldr max (xs.headD 0)) }

/-- The `Result` record of `coba/benchmarks.py`. -/
structure PyResult where
  learner_name : String
  simulation_index : ℕ
  batch_index : ℕ
  interaction_count : ℕ
  median_feature_count : ℚ
  median_action_count : ℚ
  stats : SummaryStats
deriving DecidableEq, Repr

/-- `feature_count` inside `evaluate`:
`len(i.context) if isinstance(i.context, tuple) else 0 if i.context is None else 1`. -/
def featureCount (i : PyInteraction) : ℕ :=
  match i.context with
  | .pytup l => l.length
  | .pynone => 0
  | _ => 1

/-- `action_count` inside `evaluate`: `len(i.actions)`. -/
def actionCount (i : PyInteraction) : ℕ := i.actions.length

/-- `statistics.median`: sorts and takes the middle element (odd
length) or the mean of the two middle elements (even length); raises
`StatisticsError` on an empty sequence. -/
def pyMedian (l : List ℚ) : Except PyErr ℚ :=
  if l = [] then .error .statisticsError
  else
    let s := l.insertionSort (· ≤ ·)
    let n := l.length
    if n % 2 = 1 then .ok (s.getD (n / 2) 0)
    else .ok ((s.getD (n / 2 - 1) 0 + s.getD (n / 2) 0) / 2)

/-- The batching configuration of `UniversalBenchmark.__init__`
(exactly one of `batch_count`, int / sequence / callable `batch_size`). -/
inductive BatchPolicy where
  | count (k : ℕ)
  | size (s : ℕ)
  | sizes (l : List ℕ)
  | sizeFn (f : ℕ → ℕ)

/-- `UniversalBenchmark._batch_sizes(n_interactions)`; `batch_count = 0`
or `batch_size = 0` raises `ZeroDivisionError` in the Python division. -/
def computeBatchSizes : BatchPolicy → ℕ → Except PyErr (List ℕ)
  | .count k, n => if k = 0 then .error .zeroDivisionError else .ok (batchSizesCount n k)
  | .size s, n => if s = 0 then .error .zeroDivisionError else .ok (List.replicate (n / s) s)
  | .sizes l, _ => .ok l
  | .sizeFn f, n => .ok (batchSizesFn n f)

/-- The `batch_indexes` iterator:
`iter(b for i, s in enumerate(batch_sizes) for b in repeat(i, s))`. -/
def batchIndexesGo : ℕ → List ℕ → List ℕ
  | _, [] => []
  | i, s :: rest => List.replicate s i ++ batchIndexesGo (i + 1) rest

/-- The flattened batch-index stream starting at batch 0. -/
def batchIndexes (sizes : List ℕ) : List ℕ := batchIndexesGo 0 sizes

/-- `itertools.groupby` (consecutive runs of equal keys), with explicit
fuel equal to the input length. -/
def pyGroupByGo (R : α → α → Bool) : ℕ → List α → List (List α)
  | 0, _ => []
  | _, [] => []
  | fuel + 1, x :: xs => (x :: xs.takeWhile (R x)) :: pyGroupByGo R fuel (xs.dropWhile (R x))

/-- `groupby(batched_indexed_interactions, lambda t: t[0])` as used in
`evaluate`. -/
def pyGroupBy (R : α → α → Bool) (l : List α) : List (List α) := pyGroupByGo R l.length l

/-- The inner `for _, i in batch_group[1]` loop: one `learner.choose`
per interaction, then the `i.actions[choice]` access (raising
`IndexError` when the returned index is invalid), buffering
`(key, context, choice, action)`. -/
def batchChoices (L : PyLearner) :
    List (ℕ × PyInteraction) → Except PyErr (List (ℕ × PyVal × ℕ × PyVal))
  | [] => .ok []
  | (_, i) :: rest =>
    match L.choose i.key i.context i.actions with
    | .error e => .error e
    | .ok choice =>
      match i.actions.get? choice with
      | none => .error .indexError
      | some act =>
        match batchChoices L rest with
        | .error e => .error e
        | .ok tail => .ok ((i.key, i.context, choice, act) :: tail)

/-- Line 228 of `coba/benchmarks.py`:
`rewards = simulation.rewards(list(zip(keys, choices)))`.  No class in
`coba/simulations.py` has an attribute `rewards` — the abstract
interface and every implementation define `reward` (singular), see
`Simulation.reward` / `MemorySimulation.reward` — so the attribute
lookup raises `AttributeError`. -/
def simulationRewardsAttr : Except PyErr (List ℚ) :=
  .error (.attributeError "rewards")

/-- One learner's pass over the batch groups (the
`for batch_group in groupby(...)` loop); `Result`s appended before an
exception are kept (the handler sits outside, at simulation level). -/
def runBatches (simIdx learnerIdx : ℕ) (L : PyLearner) (interactionCount : ℕ)
    (mfc mac : ℚ) : List (List (ℕ × PyInteraction)) → List PyResult × Option PyErr
  | [] => ([], none)
  | g :: gs =>
    match batchChoices L g with
    | .error e => ([], some e)
    | .ok obs =>
      match simulationRewardsAttr with
      | .error e => ([], some e)
      | .ok rewards =>
        let stats := SummaryStats.fromObservations rewards
        let name := safeName learnerIdx L
        match (obs.zip rewards).mapM (fun p => L.learn p.1.1 p.1.2.1 p.1.2.2.2 p.2) with
        | .error e => ([], some e)
        | .ok _ =>
          let rest := runBatches simIdx learnerIdx L interactionCount mfc mac gs
          ({ learner_name := name
             simulation_index := simIdx
             batch_index := (g.headD (0, ⟨0, .pynone, []⟩)).1
             interaction_count := interactionCount
             median_feature_count := mfc
             median_action_count := mac
             stats := stats } :: rest.1, rest.2)

/-- How much of the shared `batch_indexes` iterator one full pass of
`zip(batch_indexes, simulation.interactions)` consumes: all of it when
it is the shorter sequence, one element beyond the interactions when it
is longer. -/
def consumedCount (remLen nInter : ℕ) : ℕ :=
  if remLen ≤ nInter then remLen else nInter + 1

/-- The `for learner_index, learner_factory in enumerate(...)` loop.
The `batch_indexes` iterator was created **once per simulation**
(line 204), so its unconsumed remainder `remaining` threads from one
learner to the next; an exception from any learner escapes this whole
loop to the per-simulation handler. -/
def runLearners (sim : MemorySim) (simIdx : ℕ) (interactionCount : ℕ) (mfc mac : ℚ) :
    List PyLearner → ℕ → List ℕ → List PyResult × Option PyErr
  | [], _, _ => ([], none)
  | L :: rest, idx, remaining =>
    let zipped := remaining.zip sim.interactions
    let groups := pyGroupBy (fun a b => a.1 == b.1) zipped
    match runBatches simIdx idx L interactionCount mfc mac groups with
    | (rs, some e) => (rs, some e)
    | (rs, none) =>
      let next := runLearners sim simIdx interactionCount mfc mac rest (idx + 1)
        (remaining.drop (consumedCount remaining.length sim.interactions.length))
      (rs ++ next.1, next.2)

/-- The per-simulation body of `UniversalBenchmark.evaluate` (the
inside of the `try`): interaction count, the two medians
(`statistics.median` raises on an empty simulation), `_batch_sizes`,
the single `batch_indexes` iterator, then the learner loop. -/
def evalOne (policy : BatchPolicy) (simIdx : ℕ) (sim : MemorySim)
    (learners : List PyLearner) : List PyResult × Option PyErr :=
  match pyMedian ((sim.interactions.map featureCount).map fun n => (n : ℚ)) with
  | .error e => ([], some e)
  | .ok mfc =>
    match pyMedian ((sim.interactions.map actionCount).map fun n => (n : ℚ)) with
    | .error e => ([], some e)
    | .ok mac =>
      match computeBatchSizes policy sim.interactions.length with
      | .error e => ([], some e)
      | .ok sizes =>
        runLearners sim simIdx sim.interactions.length mfc mac learners 0
          (batchIndexes sizes)

/-- The simulation loop of `evaluate` with its per-simulation handler:
an escaped exception is logged (`ExecutionContext.Logger.log`; the log
is returned as the list of logged exceptions) and the loop continues
with the next simulation; results accumulated so far are kept. -/
def evaluateGo (policy : BatchPolicy) (learners : List PyLearner) :
    List MemorySim → ℕ → List PyResult × List PyErr
  | [], _ => ([], [])
  | sim :: rest, idx =>
    let r := evalOne policy idx sim learners
    let next := evaluateGo policy learners rest (idx + 1)
    (r.1 ++ next.1, (match r.2 with | some e => [e] | none => []) ++ next.2)

/-- `UniversalBenchmark(simulations, ...).evaluate(learner_factories)`:
returns the emitted `Result` records and the logged exceptions. -/
def evaluate (policy : BatchPolicy) (sims : List MemorySim)
    (learners : List PyLearner) : List PyResult × List PyErr :=
  evaluateGo policy learners sims 0

/-! ### Facts about the evaluation loop -/

/-- A learner whose `choose` always returns a valid action index (the
Learner contract of spec §4.6). -/
def ChoosesValidly (L : PyLearner) : Prop :=
  ∀ k c acts, acts ≠ [] → ∃ m, L.choose k c acts = .ok m ∧ m < acts.length

/-- A learner whose `choose` always raises the exception `e`. -/
def RaisesAlways (L : PyLearner) (e : PyErr) : Prop :=
  ∀ k c acts, L.choose k c acts = .error e

/-- A simulation with at least one interaction, each with a non-empty
action set (the assert of `Interaction.__init__`). -/
def WellFormedSim (sim : MemorySim) : Prop :=
  sim.interactions ≠ [] ∧ ∀ i ∈ sim.interactions, i.actions ≠ []

theorem batchIndexesGo_length (sizes : List ℕ) :
    ∀ i, (batchIndexesGo i sizes).length = sizes.sum := by
  induction sizes with
  | nil => intro i; rfl
  | cons s rest ih =>
    intro i
    simp [batchIndexesGo, ih (i + 1)]

theorem batchIndexes_ne_nil {sizes : List ℕ} (h : sizes.sum ≠ 0) :
    batchIndexes sizes ≠ [] := by
  intro hnil
  have hlen := batchIndexesGo_length sizes 0
  rw [show batchIndexesGo 0 sizes = batchIndexes sizes from rfl, hnil] at hlen
  exact h hlen.symm

/-- The sum of the `batch_count` schedule is the interaction count. -/
theorem batchSizesCount_sum (n k : ℕ) (hk : 0 < k) : (batchSizesCount n k).sum = n := by
  have hlt : ∀ t ∈ bumpTargets n k, t < (List.replicate k (n / k)).length := by
    intro t ht
    rw [List.length_replicate]
    exact bumpTargets_mem_lt hk t ht
  unfold batchSizesCount
  rw [sum_applyBumps _ _ hlt]
  have h1 : (List.replicate k (n / k)).sum = k * (n / k) := by
    simp [List.sum_replicate, Nat.smul_one_eq_cast]
  have h2 : (bumpTargets n k).length = n % k := by
    simp [bumpTargets]
  rw [h1, h2]
  exact Nat.div_add_mod n k

theorem mem_of_mem_takeWhile {p : α → Bool} :
    ∀ {l : List α} {x : α}, x ∈ l.takeWhile p → x ∈ l := by
  intro l
  induction l with
  | nil => intro x h; simp [List.takeWhile] at h
  | cons y ys ih =>
    intro x h
    by_cases hp : p y
    · rw [List.takeWhile_cons, if_pos hp] at h
      rcases List.mem_cons.mp h with rfl | h
      · exact List.mem_cons_self _ _
      · exact List.mem_cons_of_mem _ (ih h)
    · rw [List.takeWhile_cons, if_neg hp] at h
      simp at h

theorem pyMedian_ok {l : List ℚ} (h : l ≠ []) : ∃ q, pyMedian l = .ok q := by
  unfold pyMedian
  rw [if_neg h]
  by_cases hp : l.length % 2 = 1
  · exact ⟨_, by rw [if_pos hp]⟩
  · exact ⟨_, by rw [if_neg hp]⟩

theorem pyGroupBy_cons (R : α → α → Bool) (x : α) (xs : List α) :
    pyGroupBy R (x :: xs)
      = (x :: xs.takeWhile (R x)) :: pyGroupByGo R xs.length (xs.dropWhile (R x)) := rfl

theorem batchChoices_ok {L : PyLearner} (hL : ChoosesValidly L) :
    ∀ g : List (ℕ × PyInteraction), (∀ p ∈ g, p.2.actions ≠ []) →
      ∃ obs, batchChoices L g = .ok obs := by
  intro g
  induction g with
  | nil => exact fun _ => ⟨[], rfl⟩
  | cons p rest ih =>
    intro hg
    obtain ⟨b, i⟩ := p
    obtain ⟨m, hm, hlt⟩ := hL i.key i.context i.actions (hg (b, i) (by simp))
    obtain ⟨tail, htail⟩ := ih fun q hq => hg q (by simp [hq])
    have hact := List.getElem?_eq_getElem hlt
    refine ⟨(i.key, i.context, m, i.actions.get ⟨m, hlt⟩) :: tail, ?_⟩
    simp [batchChoices, hm, hact, htail, List.get_eq_getElem]

theorem batchChoices_err {L : PyLearner} {e : PyErr} (hL : RaisesAlways L e)
    (b : ℕ) (i : PyInteraction) (rest : List (ℕ × PyInteraction)) :
    batchChoices L ((b, i) :: rest) = .error e := by
  simp [batchChoices, hL i.key i.context i.actions]

theorem runBatches_attr {L : PyLearner} {g : List (ℕ × PyInteraction)}
    {obs} (h : batchChoices L g = .ok obs)
    (simIdx idx ic : ℕ) (mfc mac : ℚ) (gs : List (List (ℕ × PyInteraction))) :
    runBatches simIdx idx L ic mfc mac (g :: gs)
      = ([], some (.attributeError "rewards")) := by
  cases g with
  | nil => simp [runBatches, batchChoices, simulationRewardsAttr]
  | cons p ps => simp [runBatches, h, simulationRewardsAttr]

theorem runBatches_choose_err {L : PyLearner} {g : List (ℕ × PyInteraction)}
    {e : PyErr} (h : batchChoices L g = .error e)
    (simIdx idx ic : ℕ) (mfc mac : ℚ) (gs : List (List (ℕ × PyInteraction))) :
    runBatches simIdx idx L ic mfc mac (g :: gs) = ([], some e) := by
  cases g with
  | nil => simp [batchChoices] at h
  | cons p ps => simp [runBatches, h]

theorem runLearners_first_err {sim : MemorySim} {L : PyLearner} {e : PyErr}
    {simIdx ic : ℕ} {mfc mac : ℚ} {rest : List PyLearner} {idx : ℕ}
    {remaining : List ℕ}
    (h : runBatches simIdx idx L ic mfc mac
      (pyGroupBy (fun a b => a.1 == b.1) (remaining.zip sim.interactions)) = ([], some e)) :
    runLearners sim simIdx ic mfc mac (L :: rest) idx remaining = ([], some e) := by
  simp [runLearners, h]

/-- The first learner's first batch always dies on the `simulation.rewards`
attribute lookup: the per-simulation body returns no result and the
`AttributeError`. -/
theorem evalOne_attr (policy : BatchPolicy) (simIdx : ℕ) (sim : MemorySim)
    (L : PyLearner) (rest : List PyLearner)
    (hwf : WellFormedSim sim) (hL : ChoosesValidly L)
    {sizes : List ℕ}
    (hsz : computeBatchSizes policy sim.interactions.length = .ok sizes)
    (hsum : sizes.sum ≠ 0) :
    evalOne policy simIdx sim (L :: rest) = ([], some (.attributeError "rewards")) := by
  obtain ⟨hne, hacts⟩ := hwf
  obtain ⟨mfc, hmfc⟩ := pyMedian_ok
    (l := (sim.interactions.map featureCount).map fun n => (n : ℚ))
    (by simp; exact List.exists_mem_of_ne_nil _ hne)
  obtain ⟨mac, hmac⟩ := pyMedian_ok
    (l := (sim.interactions.map actionCount).map fun n => (n : ℚ))
    (by simp; exact List.exists_mem_of_ne_nil _ hne)
  obtain ⟨b, bs, hb⟩ := List.exists_cons_of_ne_nil (batchIndexes_ne_nil hsum)
  obtain ⟨i0, is, hi⟩ := List.exists_cons_of_ne_nil hne
  have hzip : (batchIndexes sizes).zip sim.interactions = (b, i0) :: bs.zip is := by
    rw [hb, hi]
    rfl
  have hgwf : ∀ p ∈ (b, i0) :: (bs.zip is).takeWhile (fun q => (b, i0).1 == q.1),
      p.2.actions ≠ [] := by
    intro p hp
    rcases List.mem_cons.mp hp with rfl | hp
    · exact hacts i0 (by rw [hi]; exact List.mem_cons_self _ _)
    · have hpz : p ∈ bs.zip is := mem_of_mem_takeWhile hp
      exact hacts p.2 (by rw [hi]; exact List.mem_cons_of_mem _ (List.of_mem_zip hpz).2)
  obtain ⟨obs, hobs⟩ := batchChoices_ok hL _ hgwf
  simp only [evalOne, hmfc, hmac, hsz]
  apply runLearners_first_err
  rw [hzip, pyGroupBy_cons]
  exact runBatches_attr hobs _ _ _ _ _ _

theorem evaluateGo_attr (policy : BatchPolicy) (L : PyLearner) (rest : List PyLearner)
    (hL : ChoosesValidly L) :
    ∀ (sims : List MemorySim) (idx : ℕ),
      (∀ sim ∈ sims, WellFormedSim sim ∧
        ∃ sizes, computeBatchSizes policy sim.interactions.length = .ok sizes ∧
          sizes.sum ≠ 0) →
      evaluateGo policy (L :: rest) sims idx
        = ([], List.replicate sims.length (.attributeError "rewards")) := by
  intro sims
  induction sims with
  | nil => intro idx _; rfl
  | cons sim srest ih =>
    intro idx hs
    obtain ⟨hwf, sizes, hsz, hsum⟩ := hs sim (List.mem_cons_self _ _)
    have h1 := evalOne_attr policy idx sim L rest hwf hL hsz hsum
    have h2 := ih (idx + 1) fun s hmem => hs s (List.mem_cons_of_mem _ hmem)
    simp [evaluateGo, h1, h2, List.replicate_succ]

/-- The first learner's raised exception aborts the whole simulation
body, producing no results and one logged exception. -/
theorem evalOne_raiser (k idx : ℕ) (sim : MemorySim) (raiser : PyLearner)
    (rest : List PyLearner) (e : PyErr)
    (hwf : WellFormedSim sim) (hk : k ≠ 0) (hr : RaisesAlways raiser e) :
    evalOne (.count k) idx sim (raiser :: rest) = ([], some e) := by
  obtain ⟨hne, hacts⟩ := hwf
  obtain ⟨mfc, hmfc⟩ := pyMedian_ok
    (l := (sim.interactions.map featureCount).map fun n => (n : ℚ))
    (by simp; exact List.exists_mem_of_ne_nil _ hne)
  obtain ⟨mac, hmac⟩ := pyMedian_ok
    (l := (sim.interactions.map actionCount).map fun n => (n : ℚ))
    (by simp; exact List.exists_mem_of_ne_nil _ hne)
  have hsz : computeBatchSizes (.count k) sim.interactions.length
      = .ok (batchSizesCount sim.interactions.length k) := by
    simp [computeBatchSizes, hk]
  have hsum : (batchSizesCount sim.interactions.length k).sum ≠ 0 := by
    rw [batchSizesCount_sum _ _ (Nat.pos_of_ne_zero hk)]
    simpa using hne
  obtain ⟨b, bs, hb⟩ := List.exists_cons_of_ne_nil (batchIndexes_ne_nil hsum)
  obtain ⟨i0, is, hi⟩ := List.exists_cons_of_ne_nil hne
  have hzip : (batchIndexes (batchSizesCount sim.interactions.length k)).zip sim.interactions
      = (b, i0) :: bs.zip is := by
    rw [hb, hi]
    rfl
  simp only [evalOne, hmfc, hmac, hsz]
  apply runLearners_first_err
  rw [hzip, pyGroupBy_cons]
  exact runBatches_choose_err (batchChoices_err hr b i0 _) _ _ _ _ _ _

/-! ### Claims C1–C3 -/

/-- A one-interaction in-memory simulation (key 0, no context, a single
action with reward 1). -/
def demoSim : MemorySim := ⟨[⟨0, .pynone, [.pyint 0]⟩], [[1]]⟩

/-- A learner that always picks action index 0 and learns nothing. -/
def demoLearner : PyLearner := ⟨fun _ _ _ => .ok 0, fun _ _ _ _ => .ok (), .ok "demo"⟩

/-- A learner whose `choose` always raises. -/
def raisingLearner : PyLearner :=
  ⟨fun _ _ _ => .error (.other "boom"), fun _ _ _ _ => .ok (), .ok "raiser"⟩

/-- Claim C1 (code_bug evidence): on a one-interaction simulation with
`batch_count = 1` and a single well-behaved learner factory, `evaluate`
emits **zero** `Result` records instead of the one record per
(learner, environment, batch) that the spec and the module's own tests
(`test_one_sim_batch_count_one` etc.) demand — the very first batch
dies on the `simulation.rewards` attribute lookup and the exception is
logged by the per-simulation handler. -/
theorem evaluate_emits_no_results :
    evaluate (.count 1) [demoSim] [demoLearner]
      = ([], [.attributeError "rewards"]) := rfl

/-- Claim C2 (confirmed): for every batching policy whose schedule has
a non-empty batch, every well-formed in-memory simulation, and every
learner-factory sequence headed by a learner with valid choices, the
first batch's `simulation.rewards(...)` call raises `AttributeError`
(every simulation class defines only `reward`), the per-simulation
handler logs it — one log entry per simulation — and `evaluate`
returns with no `Result` records at all. -/
theorem evaluate_rewards_name_bug (policy : BatchPolicy) (sims : List MemorySim)
    (L : PyLearner) (rest : List PyLearner)
    (hL : ChoosesValidly L)
    (hsims : ∀ sim ∈ sims, WellFormedSim sim ∧
      ∃ sizes, computeBatchSizes policy sim.interactions.length = .ok sizes ∧
        sizes.sum ≠ 0) :
    evaluate policy sims (L :: rest)
      = ([], List.replicate sims.length (.attributeError "rewards")) :=
  evaluateGo_attr policy L rest hL sims 0 hsims

/-- Witness for claim C2's theorem: the demonstration simulation with
`batch_count = 1` and the always-0 learner. -/
theorem evaluate_rewards_name_bug_witness :
    ChoosesValidly demoLearner ∧
    (∀ sim ∈ [demoSim], WellFormedSim sim ∧
      ∃ sizes, computeBatchSizes (.count 1) sim.interactions.length = .ok sizes ∧
        sizes.sum ≠ 0) ∧
    evaluate (.count 1) [demoSim] [demoLearner]
      = ([], List.replicate 1 (.attributeError "rewards")) := by
  have hL : ChoosesValidly demoLearner := by
    intro k c acts h
    refine ⟨0, rfl, ?_⟩
    cases acts with
    | nil => exact absurd rfl h
    | cons a as => simp
  have hs : ∀ sim ∈ [demoSim], WellFormedSim sim ∧
      ∃ sizes, computeBatchSizes (.count 1) sim.interactions.length = .ok sizes ∧
        sizes.sum ≠ 0 := by
    intro sim hmem
    rw [List.mem_singleton] at hmem
    subst hmem
    refine ⟨⟨List.cons_ne_nil _ _, ?_⟩, [1], rfl, by decide⟩
    intro i hi
    simp only [demoSim, List.mem_singleton] at hi
    subst hi
    exact List.cons_ne_nil _ _
  exact ⟨hL, hs, evaluate_rewards_name_bug (.count 1) [demoSim] demoLearner [] hL hs⟩

/-- Claim C3 counterexample: one environment, `batch_count = 1`, two
learner factories where the first learner's `choose` raises — the
claim promises the second learner still receives its batch record, but
`evaluate` emits no records at all (and logs one exception for the
environment). -/
theorem learner_error_kills_later_learners :
    evaluate (.count 1) [demoSim] [raisingLearner, demoLearner]
      = ([], [.other "boom"]) := rfl

/-- Claim C3 (amended): an exception from a learner's `choose` fails the
**whole environment**, not just that (environment, learner) pair: the
per-simulation handler logs it once, all remaining batches **and all
remaining learner factories** for that environment are abandoned (no
`Result` records), and evaluation proceeds with the next environment,
which is attempted in turn (here failing the same way, hence the second
log entry). -/
theorem learner_exception_aborts_environment (s1 s2 : MemorySim) (k : ℕ)
    (raiser : PyLearner) (rest : List PyLearner) (e : PyErr)
    (h1 : WellFormedSim s1) (h2 : WellFormedSim s2) (hk : k ≠ 0)
    (hr : RaisesAlways raiser e) :
    evaluate (.count k) [s1, s2] (raiser :: rest) = ([], [e, e]) := by
  have e1 := evalOne_raiser k 0 s1 raiser rest e h1 hk hr
  have e2 := evalOne_raiser k 1 s2 raiser rest e h2 hk hr
  simp [evaluate, evaluateGo, e1, e2]

/-- Witness for claim C3's amended theorem: two copies of the
demonstration simulation and the always-raising learner followed by a
healthy one. -/
theorem learner_exception_aborts_environment_witness :
    WellFormedSim demoSim ∧ (1 : ℕ) ≠ 0 ∧ RaisesAlways raisingLearner (.other "boom") ∧
    evaluate (.count 1) [demoSim, demoSim] [raisingLearner, demoLearner]
      = ([], [.other "boom", .other "boom"]) := by
  have hwf : WellFormedSim demoSim := by
    refine ⟨List.cons_ne_nil _ _, ?_⟩
    intro i hi
    simp only [demoSim, List.mem_singleton] at hi
    subst hi
    exact List.cons_ne_nil _ _
  have hr : RaisesAlways raisingLearner (.other "boom") := fun _ _ _ => rfl
  exact ⟨hwf, by decide, hr,
    learner_exception_aborts_environment demoSim demoSim 1 raisingLearner [demoLearner]
      (.other "boom") hwf hwf (by decide) hr⟩
